import Mathlib

/-!
Verification of the IMQS updater core against its natural-language
specification.

The Go sources are shallowly embedded: the filesystem is a pure tree of
named nodes, machine bytes are `Nat`, Go strings are their byte sequences
(`String` together with `strBytes`), the SHA-256 primitive and the JSON
parser from the Go standard library are abstract function parameters, and
every fallible operation returns an explicit result type.  The embedded
definitions keep the names of the Go functions they translate
(`BuildManifest`, `isReadyToApply`, `downloadContentHttp`, ...).
-/

namespace Updater

/-- Byte sequence of a Go string.  All strings handled by the updater are
ASCII, where each character is exactly one byte. -/
def strBytes (s : String) : List Nat :=
  s.data.map Char.toNat

/-! ## Hex codec (`encoding/hex`) -/

/-- Lowercase hex digit of a nibble, as a byte value
(`hextable = "0123456789abcdef"`). -/
def hexDigitByte (n : Nat) : Nat :=
  if n < 10 then 48 + n else 87 + n

/-- Byte-level model of `hex.EncodeToString`: every byte becomes its high
nibble's digit followed by its low nibble's digit. -/
def hexEncodeBytes (bs : List Nat) : List Nat :=
  bs.flatMap (fun b => [hexDigitByte (b / 16 % 16), hexDigitByte (b % 16)])

/-- `hex.EncodeToString`, producing the lowercase hex string. -/
def hexEncode (bs : List Nat) : String :=
  ⟨(hexEncodeBytes bs).map Char.ofNat⟩

/-- Go's `fromHexChar`: value of one hex digit byte; `none` for an invalid
byte (both cases of letters are accepted). -/
def fromHexChar (c : Nat) : Option Nat :=
  if 48 ≤ c ∧ c ≤ 57 then some (c - 48)
  else if 97 ≤ c ∧ c ≤ 102 then some (c - 97 + 10)
  else if 65 ≤ c ∧ c ≤ 70 then some (c - 65 + 10)
  else none

/-- `hex.DecodeString` on the byte sequence of the input string: pairs of
hex digits become bytes; an invalid byte or an odd length is an error
(`none`). -/
def hexDecode : List Nat → Option (List Nat)
  | [] => some []
  | [_] => none
  | a :: b :: rest =>
    match fromHexChar a, fromHexChar b, hexDecode rest with
    | some hi, some lo, some tl => some ((hi * 16 + lo) :: tl)
    | _, _, _ => none

/-! ## Pure filesystem tree -/

/-- The listing of one directory: a sequence of named entries, each a
regular file with its bytes or a subdirectory with its own listing.  The
sequence order models the (deterministic) listing order of
`ioutil.ReadDir`. -/
inductive FsTree where
  | nil
  | file (name : String) (content : List Nat) (rest : FsTree)
  | dir (name : String) (entries : FsTree) (rest : FsTree)
  deriving Repr

/-- A directory tree: the listing of the root directory. -/
abbrev Tree := FsTree

/-- What a resolved directory entry is: a file's bytes or a
subdirectory's listing. -/
inductive NodeView where
  | file (content : List Nat)
  | dir (entries : FsTree)
  deriving Repr

/-- Find a directory entry by name. -/
def findEntry : FsTree → String → Option NodeView
  | .nil, _ => none
  | .file n c rest, name => if n = name then some (.file c) else findEntry rest name
  | .dir n sub rest, name => if n = name then some (.dir sub) else findEntry rest name

/-- Split a character sequence at every occurrence of a separator
(accumulating the current segment's characters in reverse), as
`strings.Split` does for a one-byte separator. -/
def splitChars (sep : Char) : List Char → List Char → List String
  | [], acc => [⟨acc.reverse⟩]
  | c :: rest, acc =>
    if c = sep then ⟨acc.reverse⟩ :: splitChars sep rest []
    else splitChars sep rest (c :: acc)

/-- Slash-separated segments of a relative path. -/
def splitPath (s : String) : List String :=
  splitChars '/' s.data []

/-- Resolve a relative path, given as its list of segments. -/
def lookupNode : List String → FsTree → Option NodeView
  | [], _ => none
  | [name], t => findEntry t name
  | name :: rest, t =>
    match findEntry t name with
    | some (.dir sub) => lookupNode rest sub
    | _ => none

/-- Outcome of `ioutil.ReadFile` in the pure model: the bytes, a
file-not-found error (`os.IsNotExist`), or any other I/O error (here:
the path names a directory). -/
inductive ReadResult where
  | ok (content : List Nat)
  | notExist
  | otherErr
  deriving DecidableEq, Repr

/-- `ioutil.ReadFile` over the pure tree, for a slash-separated relative
path.  In this model `os.Stat` agrees with the read, so the separate
`os.IsNotExist(os.Stat(...))` probe of the Go code is the `notExist`
case. -/
def readFileTree (t : Tree) (p : String) : ReadResult :=
  match lookupNode (splitPath p) t with
  | some (.file c) => .ok c
  | some (.dir _) => .otherErr
  | none => .notExist

/-- `path.Join` for the arguments the scanner uses (a cleaned relative
directory and a plain entry name). -/
def pathJoin (a b : String) : String :=
  if a = "" then b else a ++ "/" ++ b

/-! ## Manifest (`manifest.go`) -/

def ManifestFilename_Content : String := "manifest.content"
def ManifestFilename_Hash : String := "manifest.hash"

/-- One manifest entry: a relative filename and the hex-encoded SHA-256
hash of the file's contents. -/
structure ManifestFile where
  Name : String
  Hash : String
  deriving DecidableEq, Repr

/-- Inventory of a file tree: files (with content hashes) and
directories, both in traversal order. -/
structure Manifest where
  Files : List ManifestFile
  Dirs : List String
  deriving DecidableEq, Repr

/-- Envelope digest (`Manifest.hash` in Go): the abstract SHA-256
primitive applied to the stream obtained by writing, for every file in
stored order, the `Name` bytes then the (hex) `Hash` bytes, and then
every directory path in stored order.  Deliberately not a digest of the
JSON serialization. -/
def Manifest.hash (sha256 : List Nat → List Nat) (m : Manifest) : List Nat :=
  let h : List Nat := []
  let h := m.Files.foldl (fun h f => h ++ strBytes f.Name ++ strBytes f.Hash) h
  let h := m.Dirs.foldl (fun h d => h ++ strBytes d) h
  sha256 h

/-- `Manifest.scanPathRecursive`: walk the tree in listing order,
skipping an entry when its joined relative path equals one of the two
sidecar filenames, recording directories in pre-order and files with an
empty hash. -/
def scanPathRecursive (entries : FsTree) (relDir : String)
    (m : Manifest) : Manifest :=
  match entries with
  | .nil => m
  | .file name _ rest =>
    let relName := pathJoin relDir name
    if relName = ManifestFilename_Content ∨ relName = ManifestFilename_Hash then
      scanPathRecursive rest relDir m
    else
      scanPathRecursive rest relDir
        { m with Files := m.Files ++ [{ Name := relName, Hash := "" }] }
  | .dir name sub rest =>
    let relName := pathJoin relDir name
    if relName = ManifestFilename_Content ∨ relName = ManifestFilename_Hash then
      scanPathRecursive rest relDir m
    else
      let m := { m with Dirs := m.Dirs ++ [relName] }
      let m := scanPathRecursive sub relName m
      scanPathRecursive rest relDir m

/-- `Manifest.calculateHashes` on the file list: read every file and
store the hex-encoded digest of its bytes; `none` if some read fails. -/
def calculateHashesFiles (sha256 : List Nat → List Nat) (t : Tree) :
    List ManifestFile → Option (List ManifestFile)
  | [] => some []
  | f :: rest =>
    match readFileTree t f.Name with
    | .ok body =>
      (calculateHashesFiles sha256 t rest).map
        (fun r => { f with Hash := hexEncode (sha256 body) } :: r)
    | _ => none

/-- `Manifest.calculateHashes`. -/
def Manifest.calculateHashes (sha256 : List Nat → List Nat) (t : Tree)
    (m : Manifest) : Option Manifest :=
  (calculateHashesFiles sha256 t m.Files).map (fun fs => { m with Files := fs })

/-- `BuildManifest`: scan the tree, then compute every file's hash. -/
def BuildManifest (sha256 : List Nat → List Nat) (t : Tree) : Option Manifest :=
  (scanPathRecursive t "" ⟨[], []⟩).calculateHashes sha256 t

/-- `BuildManifestWithoutHashes`: the same traversal, hashes left empty. -/
def BuildManifestWithoutHashes (t : Tree) : Manifest :=
  scanPathRecursive t "" ⟨[], []⟩

/-- `ReadManifest`: read `manifest.content` and parse it.  The JSON
decoder (`json.Unmarshal`) is the abstract parameter `parse`. -/
def readManifest (parse : List Nat → Option Manifest) (t : Tree) :
    Option Manifest :=
  match readFileTree t ManifestFilename_Content with
  | .ok body => parse body
  | _ => none

/-- Error cases of `Manifest.isConsistentWithHash`: the read of
`manifest.hash` failed, its hex decoding failed, or the decoded digest
differs from the envelope digest (`ErrManifestInconsistent`). -/
inductive ConsErr where
  | readErr
  | decodeErr
  | inconsistent
  deriving DecidableEq, Repr

/-- `Manifest.isConsistentWithHash`: read `manifest.hash` from the tree,
hex-decode its bytes, and compare with the envelope digest.  `none`
means consistent. -/
def Manifest.isConsistentWithHash (sha256 : List Nat → List Nat)
    (m : Manifest) (t : Tree) : Option ConsErr :=
  match readFileTree t ManifestFilename_Hash with
  | .ok hashHex =>
    match hexDecode hashHex with
    | some hash => if m.hash sha256 = hash then none else some .inconsistent
    | none => some .decodeErr
  | _ => some .readErr

/-- Error cases of `isManifestPairConsistent`. -/
inductive PairErr where
  | parseFailed
  | cons (e : ConsErr)
  deriving DecidableEq, Repr

/-- `isManifestPairConsistent` over the already-downloaded
`manifest.content` bytes: parse them, then check consistency against the
`manifest.hash` sidecar in the tree. -/
def isManifestPairConsistent (sha256 : List Nat → List Nat)
    (parse : List Nat → Option Manifest) (contentBytes : List Nat)
    (t : Tree) : Option PairErr :=
  match parse contentBytes with
  | none => some .parseFailed
  | some m => (m.isConsistentWithHash sha256 t).map .cons

/-! ## SyncDir predicates (`syncdir.go`)

A `SyncDir` is modelled by the pair of pure trees of its two local
directories: `cur` is the live tree under `LocalPath`, `next` the
staging tree under `LocalPathNext`. -/

/-- `SyncDir.manifestHashIsReadableAndNew`: read `manifest.hash` in both
directories; fail if `next`'s copy is unreadable; specially allow a
missing (but not otherwise unreadable) copy in `cur`; otherwise compare
bytes. -/
def manifestHashIsReadableAndNew (cur next : Tree) : Bool :=
  match readFileTree next ManifestFilename_Hash with
  | .ok f2 =>
    match readFileTree cur ManifestFilename_Hash with
    | .ok f1 => decide ¬(f1 = f2)
    | .notExist => true
    | .otherErr => false
  | _ => false

/-- Error cases surfaced by `SyncDir.isReadyToApply`. -/
inductive ApplyCheckErr where
  | buildFailed
  | readManifestFailed
  | consistency (e : ConsErr)
  deriving DecidableEq, Repr

/-- `SyncDir.isReadyToApply`: the apply gate, returning the Go
function's `(bool, error)` pair. -/
def isReadyToApply (sha256 : List Nat → List Nat)
    (parse : List Nat → Option Manifest) (cur next : Tree) :
    Bool × Option ApplyCheckErr :=
  if ¬manifestHashIsReadableAndNew cur next then (false, none)
  else
    match BuildManifest sha256 next with
    | none => (false, some .buildFailed)
    | some manifest_truth =>
      match readManifest parse next with
      | none => (false, some .readManifestFailed)
      | some manifest_file =>
        if ¬(manifest_truth.hash sha256 = manifest_file.hash sha256) then
          (false, none)
        else
          match manifest_truth.isConsistentWithHash sha256 next with
          | some e => (false, some (.consistency e))
          | none => (true, none)

/-! ## JSON serialization (`Manifest.Write` / `json.MarshalIndent`)

Only the serialized shape matters here: the envelope digest is proved to
be a digest of the canonical stream, not of these bytes. -/

/-- JSON string escaping as performed by `encoding/json` (default
HTML-escaping encoder). -/
def jsonEscapeChar (c : Char) : List Char :=
  if c = '"' then ['\\', '"']
  else if c = '\\' then ['\\', '\\']
  else if c = '\n' then ['\\', 'n']
  else if c = '\r' then ['\\', 'r']
  else if c = '\t' then ['\\', 't']
  else if c = '<' then ['\\', 'u', '0', '0', '3', 'c']
  else if c = '>' then ['\\', 'u', '0', '0', '3', 'e']
  else if c = '&' then ['\\', 'u', '0', '0', '2', '6']
  else if c.toNat < 32 then
    ['\\', 'u', '0', '0', Char.ofNat (hexDigitByte (c.toNat / 16 % 16)),
      Char.ofNat (hexDigitByte (c.toNat % 16))]
  else [c]

/-- A JSON string literal. -/
def jsonString (s : String) : String :=
  "\"" ++ ⟨s.data.flatMap jsonEscapeChar⟩ ++ "\""

/-- Comma-and-newline separated concatenation of array elements, each on
its own line at the given indentation. -/
def jsonArrayBody (indent : String) : List String → String
  | [] => ""
  | [x] => indent ++ x
  | x :: rest => indent ++ x ++ ",\n" ++ jsonArrayBody indent rest

/-- One `ManifestFile` as `json.MarshalIndent` renders it at depth two. -/
def serializeManifestFile (f : ManifestFile) : String :=
  "\x7b\n\t\t\t\"Name\": " ++ jsonString f.Name ++ ",\n\t\t\t\"Hash\": "
    ++ jsonString f.Hash ++ "\n\t\t\x7d"

/-- `json.MarshalIndent(m, "", "\t")` for a `Manifest`.  A `nil` Go
slice renders as `null`; manifests are always built by appending to a
`nil` slice, so the empty list is rendered that way. -/
def serializeManifest (m : Manifest) : String :=
  let files :=
    match m.Files with
    | [] => "null"
    | fs => "[\n" ++ jsonArrayBody "\t\t" (fs.map serializeManifestFile) ++ "\n\t]"
  let dirs :=
    match m.Dirs with
    | [] => "null"
    | ds => "[\n" ++ jsonArrayBody "\t\t" (ds.map jsonString) ++ "\n\t]"
  "\x7b\n\t\"Files\": " ++ files ++ ",\n\t\"Dirs\": " ++ dirs ++ "\n\x7d"

/-- The canonical envelope byte stream described by the specification:
for each file in stored order its `Name` bytes then its hex `Hash`
bytes, then each directory path's bytes in stored order. -/
def envelopeStream (m : Manifest) : List Nat :=
  (m.Files.map (fun f => strBytes f.Name ++ strBytes f.Hash)).flatten
    ++ (m.Dirs.map strBytes).flatten

/-! ## Derived indices (Go map builders)

Go builds a map by inserting every entry in order, so a duplicate key is
resolved last-wins; these lookups fold in the same order. -/

/-- `Manifest.hashToFileMap` lookup: the last file with the given hex
hash, if any. -/
def hashToFileMap (m : Manifest) (h : String) : Option ManifestFile :=
  m.Files.foldl (fun acc f => if f.Hash = h then some f else acc) none

/-- `Manifest.nameToFileMap` lookup: the last file with the given name,
if any. -/
def nameToFileMap (m : Manifest) (name : String) : Option ManifestFile :=
  m.Files.foldl (fun acc f => if f.Name = name then some f else acc) none

/-- `Manifest.nameToDirMap` lookup: whether the directory is listed. -/
def nameToDirMap (m : Manifest) (d : String) : Bool :=
  m.Dirs.contains d

/-! ## Reconciler (`downloadContentHttp`, `updater.go`)

The reconciler is embedded as a pure function from an input world to the
ordered trace of filesystem/network operations it performs, its
observability counters, and its error.  All paths are relative: a
`copy` reads `current/src` and writes `next/dst`; a `download` GETs
`<base>/<name>` into `next/name`. -/

/-- One operation performed by a reconciliation run, in order. -/
inductive Op where
  | fetchManifest
  | removeFile (name : String)
  | removeDirAll (name : String)
  | mkdirAll (name : String)
  | copy (src dst : String)
  | download (name : String)
  deriving DecidableEq, Repr

/-- The five observability counters of `downloadContentHttp`. -/
structure Counters where
  n_new : Nat
  n_existing : Nat
  n_ready : Nat
  n_removed : Nat
  n_removed_dir : Nat
  deriving DecidableEq, Repr

def Counters.zero : Counters := ⟨0, 0, 0, 0, 0⟩

/-- Abort causes of a reconciliation run. -/
inductive RunErr where
  | fetchManifestFailed
  | pairInconsistent (e : PairErr)
  | buildPrevFailed
  | readNextFailed
  | buildNextFailed
  | downloadFailed (name : String)
  deriving DecidableEq, Repr

/-- Result of a reconciliation run. -/
structure RunResult where
  ops : List Op
  counters : Counters
  err : Option RunErr
  deriving DecidableEq, Repr

/-- The reconciler's input world: the two trees at entry (`next` already
holds the previously downloaded `manifest.hash`), the HTTP GET oracle
for relative remote names (`none` is a transport error or a non-200
status), and the `os.Stat` oracles consulted by the date/size shortcut
and the directory-existence probe.  Reads and writes of tree files
themselves never fail in the pure model; the network and the stat
results stay explicit inputs. -/
structure World where
  cur : Tree
  next : Tree
  http : String → Option (List Nat)
  statCur : String → Option (Nat × Nat)
  statNext : String → Option (Nat × Nat)
  dirExistsNext : String → Bool

/-- `areFileDatesAndSizesEqual` on the two stat outcomes: both stats
must succeed and agree on (mtime, size). -/
def areFileDatesAndSizesEqual (src dst : Option (Nat × Nat)) : Bool :=
  match src, dst with
  | some a, some b => decide (a = b)
  | _, _ => false

/-- Phase 1 of `downloadContentHttp`: delete every on-disk file of
`next` whose name is not in the ideal manifest, counting removals. -/
def pruneFilesOps (ideal : Manifest) : List ManifestFile → List Op × Nat
  | [] => ([], 0)
  | f :: rest =>
    let (ops, n) := pruneFilesOps ideal rest
    if (nameToFileMap ideal f.Name).isNone then (Op.removeFile f.Name :: ops, n + 1)
    else (ops, n)

/-- Phase 2 of `downloadContentHttp`: recursively remove every on-disk
directory of `next` not in the ideal manifest, counting removals. -/
def pruneDirsOps (ideal : Manifest) : List String → List Op × Nat
  | [] => ([], 0)
  | d :: rest =>
    let (ops, n) := pruneDirsOps ideal rest
    if ¬nameToDirMap ideal d then (Op.removeDirAll d :: ops, n + 1)
    else (ops, n)

/-- Phase 3 of `downloadContentHttp`: create every ideal directory whose
existence probe fails. -/
def createDirsOps (w : World) : List String → List Op
  | [] => []
  | d :: rest =>
    if w.dirExistsNext d then createDirsOps w rest
    else Op.mkdirAll d :: createDirsOps w rest

/-- Phase 4 of `downloadContentHttp`: materialize every ideal file, in
order.  For each file: if the last-wins digest index of actual-current
has its hash, either skip (dates and sizes of the current copy and the
staged copy agree) or copy from current; otherwise if the digest index
of actual-next has its hash at the same name, skip; otherwise download,
aborting the run on a failed GET. -/
def materializeLoop (w : World) (aprev anext : Manifest) :
    List ManifestFile → List Op × Counters × Option RunErr
  | [] => ([], .zero, none)
  | f :: rest =>
    match hashToFileMap aprev f.Hash, hashToFileMap anext f.Hash with
    | some actual_prev, _ =>
      if areFileDatesAndSizesEqual (w.statCur actual_prev.Name) (w.statNext f.Name) then
        let (ops, c, e) := materializeLoop w aprev anext rest
        (ops, { c with n_ready := c.n_ready + 1 }, e)
      else
        let (ops, c, e) := materializeLoop w aprev anext rest
        (Op.copy actual_prev.Name f.Name :: ops, { c with n_existing := c.n_existing + 1 }, e)
    | none, some actual_next =>
      if actual_next.Name = f.Name then
        let (ops, c, e) := materializeLoop w aprev anext rest
        (ops, { c with n_ready := c.n_ready + 1 }, e)
      else
        match w.http f.Name with
        | some _ =>
          let (ops, c, e) := materializeLoop w aprev anext rest
          (Op.download f.Name :: ops, { c with n_new := c.n_new + 1 }, e)
        | none => ([], .zero, some (.downloadFailed f.Name))
    | none, none =>
      match w.http f.Name with
      | some _ =>
        let (ops, c, e) := materializeLoop w aprev anext rest
        (Op.download f.Name :: ops, { c with n_new := c.n_new + 1 }, e)
      | none => ([], .zero, some (.downloadFailed f.Name))

/-- `downloadContentHttp`: fetch and check the manifest pair, build the
three manifests, then prune stray files, prune stray directories, create
missing directories, and materialize the ideal files.  `ReadManifest`
of the freshly written `manifest.content` is `parse` of the downloaded
bytes; both sidecars sit at the root, which the tree scan skips, so
`BuildManifest` of `next` is unaffected by that write. -/
def downloadContentHttp (sha256 : List Nat → List Nat)
    (parse : List Nat → Option Manifest) (w : World) : RunResult :=
  match w.http ManifestFilename_Content with
  | none => ⟨[.fetchManifest], .zero, some .fetchManifestFailed⟩
  | some contentBytes =>
    match isManifestPairConsistent sha256 parse contentBytes w.next with
    | some e => ⟨[.fetchManifest], .zero, some (.pairInconsistent e)⟩
    | none =>
      match BuildManifest sha256 w.cur with
      | none => ⟨[.fetchManifest], .zero, some .buildPrevFailed⟩
      | some actual_manifest_prev =>
        match parse contentBytes with
        | none => ⟨[.fetchManifest], .zero, some .readNextFailed⟩
        | some ideal_manifest_next =>
          match BuildManifest sha256 w.next with
          | none => ⟨[.fetchManifest], .zero, some .buildNextFailed⟩
          | some actual_manifest_next =>
            let (rmOps, nRemoved) :=
              pruneFilesOps ideal_manifest_next actual_manifest_next.Files
            let (rdOps, nRemovedDir) :=
              pruneDirsOps ideal_manifest_next actual_manifest_next.Dirs
            let mkOps := createDirsOps w ideal_manifest_next.Dirs
            let (matOps, c, e) :=
              materializeLoop w actual_manifest_prev actual_manifest_next
                ideal_manifest_next.Files
            ⟨Op.fetchManifest :: (rmOps ++ rdOps ++ mkOps ++ matOps),
              { c with n_removed := nRemoved, n_removed_dir := nRemovedDir }, e⟩

/-! ## Service monitor hooks (`monitors.go`)

The OS service controller is abstracted by `isRunning`, the status
oracle indexed by the poll round (the loop polls at one-second
intervals, so round `t` is the status check `t` seconds after the stop
commands were issued). -/

/-- The characters `strings.Trim` removes in `readLines`. -/
def trimCutset : List Char := ['\r', '\n', ' ', '\t']

/-- Trim the cutset characters from both ends of a line. -/
def trimLine (s : String) : String :=
  ⟨((s.data.dropWhile (· ∈ trimCutset)).reverse.dropWhile (· ∈ trimCutset)).reverse⟩

/-- `readLines`: split the file's contents on newlines and trim each
line; a read failure (`none` contents) yields the empty list together
with the error flag. -/
def readLines (contents : Option String) : List String × Bool :=
  match contents with
  | none => ([], true)
  | some raw => ((splitChars '\n' raw.data []).map trimLine, false)

/-- `imqsServiceNames`: the union of the service names of
`current/servicenames` and `next/servicenames`, keeping the order of
`current` and appending each unseen name of `next`; read errors are
discarded. -/
def imqsServiceNames (curSN nextSN : Option String) : List String :=
  let oldNames := (readLines curSN).1
  let newNames := (readLines nextSN).1
  newNames.foldl (fun old nNew => if old.contains nNew then old else old ++ [nNew])
    oldNames

/-- A service-control command issued by a hook. -/
inductive SvcOp where
  | stop (name : String)
  | start (name : String)
  deriving DecidableEq, Repr

/-- `ErrServiceNotStopping`. -/
inductive SvcErr where
  | serviceNotStopping
  deriving DecidableEq, Repr

/-- The 1 Hz status-poll loop of `beforeSyncImqs`: at round `t` the
still-running services are collected; the loop succeeds when none are
running and times out once more than `ServiceStopWaitSeconds` seconds
have elapsed. -/
def pollRounds (isRunning : Nat → String → Bool) (services : List String)
    (wait : Nat) (t : Nat) : Bool :=
  if (services.filter (fun s => isRunning t s)).isEmpty then true
  else if wait < t then false
  else pollRounds isRunning services wait (t + 1)
termination_by wait + 1 - t
decreasing_by omega

/-- `beforeSyncImqs`: stop every named service, poll until all stopped
or timeout; on timeout start every service again and fail with
`ErrServiceNotStopping`. -/
def beforeSyncImqs (curSN nextSN : Option String)
    (isRunning : Nat → String → Bool) (wait : Nat) :
    List SvcOp × Option SvcErr :=
  let services := imqsServiceNames curSN nextSN
  if pollRounds isRunning services wait 0 then
    (services.map .stop, none)
  else
    (services.map .stop ++ services.map .start, some .serviceNotStopping)

/-! ## Applier (`Updater.Apply`, `updater.go`) -/

/-- Events of one `Apply` run, in order. -/
inductive ApplyEv where
  | beforeCall (dirs : List String)
  | mirror (dir : String)
  | afterCall (dirs : List String)
  deriving DecidableEq, Repr

/-- A failed `shellMirrorDirectory` invocation. -/
inductive MirrorErr where
  | failed
  deriving DecidableEq, Repr

/-- The eligibility pass of `Apply`: walk all SyncDirs collecting those
whose `isReadyToApply` returns true; an `isReadyToApply` error aborts
the whole `Apply` (`none`). -/
def collectReady (dirs : List String)
    (readiness : String → Bool × Option ApplyCheckErr) : Option (List String) :=
  match dirs with
  | [] => some []
  | d :: rest =>
    match (readiness d).2 with
    | some _ => none
    | none =>
      if (readiness d).1 then (collectReady rest readiness).map (d :: ·)
      else collectReady rest readiness

/-- The mirror pass of `Apply`: mirror each eligible SyncDir in order,
stopping at the first failure; the flag tells whether all mirrors
succeeded. -/
def mirrorLoop (mres : String → Option MirrorErr) :
    List String → List ApplyEv × Bool
  | [] => ([], true)
  | d :: rest =>
    match mres d with
    | some _ => ([.mirror d], false)
    | none =>
      let (evs, ok) := mirrorLoop mres rest
      (.mirror d :: evs, ok)

/-- `Updater.Apply`: collect the eligible SyncDirs; if any, call the
before-sync hook on that list, abort on hook error, mirror each in
order stopping at the first failure, and call the after-sync hook only
when every mirror succeeded.  SyncDirs are identified by their
`LocalPath`; `readiness` is the outcome of `isReadyToApply` per dir,
`mres` the outcome of `shellMirrorDirectory` per dir. -/
def Apply (dirs : List String)
    (readiness : String → Bool × Option ApplyCheckErr)
    (before : List String → List SvcOp × Option SvcErr)
    (mres : String → Option MirrorErr) : List ApplyEv :=
  match collectReady dirs readiness with
  | none => []
  | some ready =>
    if ready.isEmpty then []
    else
      match (before ready).2 with
      | some _ => [.beforeCall ready]
      | none =>
        let (evs, ok) := mirrorLoop mres ready
        if ok then .beforeCall ready :: (evs ++ [.afterCall ready])
        else .beforeCall ready :: evs

/-! ## Claims -/

/-- C3: `manifestHashIsReadableAndNew` returns true iff
`next/manifest.hash` is readable and (`current/manifest.hash` does not
exist, or it is readable with bytes unequal to `next/manifest.hash`);
in particular a readable next hash with a missing current hash yields
true, and any read error on `current/manifest.hash` other than
non-existence yields false. -/
theorem spec_c3_hashIsReadableAndNew (cur next : Tree) :
    manifestHashIsReadableAndNew cur next = true ↔
      ∃ f2, readFileTree next ManifestFilename_Hash = .ok f2 ∧
        (readFileTree cur ManifestFilename_Hash = .notExist ∨
          ∃ f1, readFileTree cur ManifestFilename_Hash = .ok f1 ∧ f1 ≠ f2) := by
  cases hn : readFileTree next ManifestFilename_Hash with
  | ok f2 =>
    cases hc : readFileTree cur ManifestFilename_Hash with
    | ok f1 =>
      by_cases hf : f1 = f2 <;>
        simp [manifestHashIsReadableAndNew, hn, hc, hf]
    | notExist => simp [manifestHashIsReadableAndNew, hn, hc]
    | otherErr => simp [manifestHashIsReadableAndNew, hn, hc]
  | notExist => simp [manifestHashIsReadableAndNew, hn]
  | otherErr => simp [manifestHashIsReadableAndNew, hn]

/-- C1: `isReadyToApply` returns true exactly when (1) the hash pair is
readable and new, (2) the envelope digest of a manifest freshly built
from the bytes on disk under `next` equals the envelope digest of the
manifest parsed from `next/manifest.content`, and (3) that freshly built
manifest is consistent with the hex-decoded contents of
`next/manifest.hash`. -/
theorem spec_c1_isReadyToApply (sha256 : List Nat → List Nat)
    (parse : List Nat → Option Manifest) (cur next : Tree) :
    (isReadyToApply sha256 parse cur next).1 = true ↔
      (manifestHashIsReadableAndNew cur next = true ∧
        ∃ manifest_truth manifest_file,
          BuildManifest sha256 next = some manifest_truth ∧
          readManifest parse next = some manifest_file ∧
          manifest_truth.hash sha256 = manifest_file.hash sha256 ∧
          manifest_truth.isConsistentWithHash sha256 next = none) := by
  by_cases h1 : manifestHashIsReadableAndNew cur next
  · cases hb : BuildManifest sha256 next with
    | none => simp [isReadyToApply, h1, hb]
    | some mt =>
      cases hr : readManifest parse next with
      | none => simp [isReadyToApply, h1, hb, hr]
      | some mf =>
        by_cases hh : mt.hash sha256 = mf.hash sha256
        · cases hcons : mt.isConsistentWithHash sha256 next with
          | none => simp [isReadyToApply, h1, hb, hr, hh, hcons]
          | some e => simp [isReadyToApply, h1, hb, hr, hh, hcons]
        · simp [isReadyToApply, h1, hb, hr, hh]
  · simp [isReadyToApply, h1, Bool.not_eq_true _ ▸ h1]

/-- The file part of the envelope fold flushes to an appended flat
stream. -/
lemma foldl_files_stream (l : List ManifestFile) (init : List Nat) :
    l.foldl (fun h f => h ++ strBytes f.Name ++ strBytes f.Hash) init =
      init ++ (l.map (fun f => strBytes f.Name ++ strBytes f.Hash)).flatten := by
  induction l generalizing init with
  | nil => simp
  | cons f rest ih => rw [List.foldl_cons, ih]; simp

/-- The directory part of the envelope fold flushes to an appended flat
stream. -/
lemma foldl_dirs_stream (l : List String) (init : List Nat) :
    l.foldl (fun h d => h ++ strBytes d) init = init ++ (l.map strBytes).flatten := by
  induction l generalizing init with
  | nil => simp
  | cons d rest ih => rw [List.foldl_cons, ih]; simp

/-- C2: the envelope digest of a Manifest is the hash of the canonical
byte stream feeding, for each file in stored order, the `Name` bytes
then the hex `Hash` bytes, and then each directory path in stored
order; it is a function of the `Files` and `Dirs` sequences only, and it
is not the digest of the serialized JSON bytes (witnessed with the
identity in place of the abstract hash primitive). -/
theorem spec_c2_envelopeDigest :
    (∀ (sha256 : List Nat → List Nat) (m : Manifest),
        m.hash sha256 = sha256 (envelopeStream m)) ∧
      (∀ (sha256 : List Nat → List Nat) (m₁ m₂ : Manifest),
        m₁.Files = m₂.Files → m₁.Dirs = m₂.Dirs →
          m₁.hash sha256 = m₂.hash sha256) ∧
      (∃ m : Manifest,
        m.hash (fun bytes => bytes) ≠ strBytes (serializeManifest m)) := by
  have hstream : ∀ (sha256 : List Nat → List Nat) (m : Manifest),
      m.hash sha256 = sha256 (envelopeStream m) := by
    intro sha256 m
    show sha256 _ = _
    rw [foldl_files_stream, foldl_dirs_stream]
    simp [envelopeStream]
  refine ⟨hstream, ?_, ?_⟩
  · intro sha256 m₁ m₂ hf hd
    simp [Manifest.hash, hf, hd]
  · exact ⟨⟨[], []⟩, by decide⟩

/-- C10: a missing `servicenames` file is never an error for the fence
hooks: `readLines` reports the failure but yields the empty list,
`imqsServiceNames` discards the error so the unreadable side contributes
no names, and when both sides are unreadable the name list is empty and
`beforeSyncImqs` succeeds immediately without stopping any service, so
the apply proceeds unfenced. -/
theorem spec_c10_missingServicenames :
    (readLines none = ([], true)) ∧
      (∀ c : Option String,
        imqsServiceNames none c =
          (readLines c).1.foldl
            (fun old nNew => if old.contains nNew then old else old ++ [nNew]) []) ∧
      (∀ c : Option String, imqsServiceNames c none = (readLines c).1) ∧
      (imqsServiceNames none none = []) ∧
      (∀ (isRunning : Nat → String → Bool) (wait : Nat),
        beforeSyncImqs none none isRunning wait = ([], none)) := by
  refine ⟨rfl, fun c => rfl, fun c => rfl, rfl, fun isRunning wait => ?_⟩
  have hpoll : pollRounds isRunning [] wait 0 = true := by
    rw [pollRounds]; simp
  simp [beforeSyncImqs, imqsServiceNames, readLines, hpoll]

/-- The mirror pass performs the successful prefix and then the first
failing mirror, and its flag records whether a failure occurred. -/
lemma mirrorLoop_spec (mres : String → Option MirrorErr) (l : List String) :
    (mirrorLoop mres l).1 =
      (l.takeWhile (fun d => (mres d).isNone)).map ApplyEv.mirror ++
        ((l.dropWhile (fun d => (mres d).isNone)).take 1).map ApplyEv.mirror ∧
    (mirrorLoop mres l).2 = (l.dropWhile (fun d => (mres d).isNone)).isEmpty := by
  induction l with
  | nil => simp [mirrorLoop]
  | cons d rest ih =>
    cases hm : mres d with
    | some e => simp [mirrorLoop, hm, List.takeWhile_cons, List.dropWhile_cons]
    | none =>
      simp only [mirrorLoop, hm, List.takeWhile_cons, List.dropWhile_cons,
        Option.isNone_some, Option.isNone_none] at ih ⊢
      simp [ih.1, ih.2]

/-- C6 counterexample: two eligible SyncDirs, a successful before-sync
hook, and a mirror failure on the first SyncDir; `Apply` stops after the
failed mirror and never invokes the after-sync hook, contradicting the
claim that the hook is still invoked with the eligible list. -/
theorem spec_c6_counterexample :
    Apply ["d1", "d2"] (fun _ => (true, none)) (fun _ => ([], none))
        (fun d => if d = "d1" then some .failed else none) =
      [ApplyEv.beforeCall ["d1", "d2"], ApplyEv.mirror "d1"] ∧
      ∀ l, ApplyEv.afterCall l ∉
        Apply ["d1", "d2"] (fun _ => (true, none)) (fun _ => ([], none))
          (fun d => if d = "d1" then some .failed else none) := by
  have he : Apply ["d1", "d2"] (fun _ => (true, none)) (fun _ => ([], none))
      (fun d => if d = "d1" then some .failed else none) =
      [ApplyEv.beforeCall ["d1", "d2"], ApplyEv.mirror "d1"] := by decide
  refine ⟨he, fun l h => ?_⟩
  rw [he] at h
  simp at h

/-- C6 (amended): in `Apply`, when the before-sync hook has succeeded
and the mirror operation fails for some eligible SyncDir, processing of
further SyncDirs stops (the trace is the before-sync call, the mirrors
of the successful prefix, and the one failing mirror) and the
after-sync hook is not invoked at all. -/
theorem spec_c6_amended (dirs : List String)
    (readiness : String → Bool × Option ApplyCheckErr)
    (before : List String → List SvcOp × Option SvcErr)
    (mres : String → Option MirrorErr) (ready : List String)
    (hready : collectReady dirs readiness = some ready)
    (hne : ready ≠ [])
    (hbefore : (before ready).2 = none)
    (hfail : (mirrorLoop mres ready).2 = false) :
    Apply dirs readiness before mres =
      ApplyEv.beforeCall ready ::
        ((ready.takeWhile (fun d => (mres d).isNone)).map ApplyEv.mirror ++
          ((ready.dropWhile (fun d => (mres d).isNone)).take 1).map ApplyEv.mirror) ∧
      ∀ l, ApplyEv.afterCall l ∉ Apply dirs readiness before mres := by
  have hml := mirrorLoop_spec mres ready
  have hemp : ready.isEmpty = false := by
    cases ready with
    | nil => exact absurd rfl hne
    | cons a t => rfl
  have happ : Apply dirs readiness before mres =
      ApplyEv.beforeCall ready :: (mirrorLoop mres ready).1 := by
    rcases hv : mirrorLoop mres ready with ⟨evs, ok⟩
    have hok : ok = false := by rw [hv] at hfail; exact hfail
    simp only [Apply, hready, hemp, hbefore, hv, hok]
    simp
  refine ⟨by rw [happ, hml.1], fun l h => ?_⟩
  rw [happ, hml.1] at h
  simp at h
  have h2 := List.mem_of_mem_take h
  simp at h2

/-- C6 amended, at a concrete input: two eligible SyncDirs with the
second mirror failing; the after-sync hook is not invoked. -/
theorem spec_c6_amended_witness :
    ApplyEv.afterCall ["d1", "d2"] ∉
      Apply ["d1", "d2"] (fun _ => (true, none)) (fun _ => ([], none))
        (fun d => if d = "d2" then some .failed else none) :=
  (spec_c6_amended ["d1", "d2"] (fun _ => (true, none)) (fun _ => ([], none))
      (fun d => if d = "d2" then some .failed else none) ["d1", "d2"]
      (by decide) (by decide) (by decide) (by decide)).2 ["d1", "d2"]

/-- Every file recorded by the tree scan either was already in the
accumulator or carries a joined relative path that differs from both
sidecar filenames (the guard compares the full joined path). -/
lemma scan_files_mem (entries : FsTree) :
    ∀ relDir m f, f ∈ (scanPathRecursive entries relDir m).Files →
      f ∈ m.Files ∨
        (f.Name ≠ ManifestFilename_Content ∧ f.Name ≠ ManifestFilename_Hash) := by
  induction entries with
  | nil =>
    intro relDir m f h
    exact Or.inl h
  | file name content rest ih =>
    intro relDir m f h
    by_cases hg : pathJoin relDir name = ManifestFilename_Content ∨
        pathJoin relDir name = ManifestFilename_Hash
    · rw [scanPathRecursive, if_pos hg] at h
      exact ih relDir m f h
    · rw [scanPathRecursive, if_neg hg] at h
      rcases ih relDir _ f h with hmem | hne
      · rcases List.mem_append.1 hmem with hmem | hmem
        · exact Or.inl hmem
        · refine Or.inr ?_
          rcases List.mem_singleton.1 hmem with rfl
          push_neg at hg
          exact hg
      · exact Or.inr hne
  | dir name sub rest ihsub ihrest =>
    intro relDir m f h
    by_cases hg : pathJoin relDir name = ManifestFilename_Content ∨
        pathJoin relDir name = ManifestFilename_Hash
    · rw [scanPathRecursive, if_pos hg] at h
      exact ihrest relDir m f h
    · rw [scanPathRecursive, if_neg hg] at h
      rcases ihrest relDir _ f h with hmem | hne
      · rcases ihsub _ _ f hmem with hmem2 | hne2
        · exact Or.inl hmem2
        · exact Or.inr hne2
      · exact Or.inr hne

/-- `calculateHashesFiles` only fills in hashes: the produced entries
carry the names of the scanned entries. -/
lemma calcHashes_names (sha256 : List Nat → List Nat) (t : Tree) :
    ∀ fs fs', calculateHashesFiles sha256 t fs = some fs' →
      ∀ f' ∈ fs', ∃ f ∈ fs, f'.Name = f.Name := by
  intro fs
  induction fs with
  | nil =>
    intro fs' h f' hf'
    simp [calculateHashesFiles] at h
    subst h
    simp at hf'
  | cons f rest ih =>
    intro fs' h f' hf'
    rw [calculateHashesFiles] at h
    cases hr : readFileTree t f.Name with
    | ok body =>
      rw [hr] at h
      cases hrec : calculateHashesFiles sha256 t rest with
      | none => rw [hrec] at h; simp at h
      | some tl =>
        rw [hrec] at h
        simp at h
        subst h
        rcases List.mem_cons.1 hf' with rfl | hmem
        · exact ⟨f, List.mem_cons_self f rest, rfl⟩
        · obtain ⟨g, hg, hname⟩ := ih tl hrec f' hmem
          exact ⟨g, List.mem_cons_of_mem f hg, hname⟩
    | notExist => rw [hr] at h; simp at h
    | otherErr => rw [hr] at h; simp at h

/-- C7 counterexample: the sidecar names are compared against the full
joined relative path, so a file called `manifest.content` inside a
subdirectory is not skipped — the produced manifest contains an entry
whose final path segment is a sidecar name. -/
theorem spec_c7_counterexample :
    ∃ m, BuildManifest (fun _ => [])
        (FsTree.dir "sub" (FsTree.file "manifest.content" [] .nil) .nil) = some m ∧
      ∃ f, f ∈ m.Files ∧
        (splitPath f.Name).getLast? = some ManifestFilename_Content := by
  refine ⟨⟨[⟨"sub/manifest.content", ""⟩], ["sub"]⟩, by decide,
    ⟨"sub/manifest.content", ""⟩, by decide, by decide⟩

/-- C7 (amended): a manifest produced by `BuildManifest` or
`BuildManifestWithoutHashes` never contains an entry whose full
relative path equals `manifest.content` or `manifest.hash` — the
sidecars are skipped at the root, where the joined relative path equals
the bare name, while files of those names inside subdirectories are
included. -/
theorem spec_c7_amended (sha256 : List Nat → List Nat) (t : Tree)
    (m : Manifest) (hm : BuildManifest sha256 t = some m) :
    (∀ f ∈ m.Files,
        f.Name ≠ ManifestFilename_Content ∧ f.Name ≠ ManifestFilename_Hash) ∧
      ∀ f ∈ (BuildManifestWithoutHashes t).Files,
        f.Name ≠ ManifestFilename_Content ∧ f.Name ≠ ManifestFilename_Hash := by
  have hscan : ∀ f ∈ (scanPathRecursive t "" ⟨[], []⟩).Files,
      f.Name ≠ ManifestFilename_Content ∧ f.Name ≠ ManifestFilename_Hash := by
    intro f hf
    rcases scan_files_mem t "" ⟨[], []⟩ f hf with hmem | hne
    · simp at hmem
    · exact hne
  refine ⟨?_, hscan⟩
  intro f hf
  unfold BuildManifest Manifest.calculateHashes at hm
  cases hc : calculateHashesFiles sha256 t (scanPathRecursive t "" ⟨[], []⟩).Files with
  | none => rw [hc] at hm; simp at hm
  | some fs' =>
    rw [hc] at hm
    simp at hm
    obtain ⟨g, hg, hname⟩ :=
      calcHashes_names sha256 t _ fs' hc f (by rw [← hm] at hf; exact hf)
    rw [hname]
    exact hscan g hg

/-- C7 amended, at a concrete input: a one-file tree. -/
theorem spec_c7_amended_witness :
    (⟨"x", ""⟩ : ManifestFile).Name ≠ ManifestFilename_Content ∧
      (⟨"x", ""⟩ : ManifestFile).Name ≠ ManifestFilename_Hash :=
  (spec_c7_amended (fun _ => []) (FsTree.file "x" [] .nil)
      ⟨[⟨"x", ""⟩], []⟩ (by decide)).1 ⟨"x", ""⟩ (by decide)

/-- Decoding a hex encoding followed by a trailing suffix fails whenever
decoding the suffix alone fails (the encoded pairs are consumed two
bytes at a time and the failure in the tail propagates). -/
lemma hexDecode_append_fail (d : List Nat) (rest : List Nat)
    (hrest : hexDecode rest = none) :
    hexDecode (hexEncodeBytes d ++ rest) = none := by
  induction d with
  | nil => simpa [hexEncodeBytes] using hrest
  | cons b tl ih =>
    simp only [hexEncodeBytes, List.flatMap_cons, List.append_assoc,
      List.cons_append, List.nil_append]
    rw [hexDecode]
    simp only [hexEncodeBytes] at ih
    rw [ih]
    cases fromHexChar (hexDigitByte (b / 16 % 16)) <;>
      cases fromHexChar (hexDigitByte (b % 16)) <;> rfl

/-- The byte sequence of the hex-encoded string is the byte-level hex
encoding (every produced character is a valid one-byte codepoint). -/
lemma strBytes_hexEncode (d : List Nat) :
    strBytes (hexEncode d) = hexEncodeBytes d := by
  have hdigit : ∀ n, n < 16 → (Char.ofNat (hexDigitByte n)).toNat = hexDigitByte n := by
    decide
  unfold strBytes hexEncode
  show ((hexEncodeBytes d).map Char.ofNat).map Char.toNat = hexEncodeBytes d
  rw [List.map_map]
  induction d with
  | nil => rfl
  | cons b tl ih =>
    simp only [hexEncodeBytes, List.flatMap_cons, List.map_append] at ih ⊢
    rw [ih]
    simp [Function.comp,
      hdigit (b / 16 % 16) (Nat.mod_lt _ (by norm_num)),
      hdigit (b % 16) (Nat.mod_lt _ (by norm_num))]

/-- C8 counterexample: a `manifest.hash` file holding exactly the
correct lowercase hex digest followed by one trailing newline is
rejected — the hex decode fails, so `isConsistentWithHash` returns an
error instead of succeeding. -/
theorem spec_c8_counterexample :
    Manifest.isConsistentWithHash (fun _ => [0]) ⟨[], []⟩
        (FsTree.file "manifest.hash"
          (strBytes (hexEncode (Manifest.hash (fun _ => [0]) ⟨[], []⟩)) ++ [10])
          .nil) =
      some ConsErr.decodeErr := by
  decide

/-- C8 (amended): reading `manifest.hash` does not tolerate trailing
whitespace: `isConsistentWithHash` succeeds exactly when the file reads
and its bytes hex-decode to the envelope digest; it fails with
`ManifestInconsistent` exactly when the bytes decode to a different
digest; and contents equal to the correct hex digest followed by a
trailing newline fail with a hex-decode error. -/
theorem spec_c8_amended (sha256 : List Nat → List Nat) (m : Manifest)
    (t : Tree) :
    (m.isConsistentWithHash sha256 t = none ↔
        ∃ b, readFileTree t ManifestFilename_Hash = .ok b ∧
          hexDecode b = some (m.hash sha256)) ∧
      (m.isConsistentWithHash sha256 t = some .inconsistent ↔
        ∃ b d, readFileTree t ManifestFilename_Hash = .ok b ∧
          hexDecode b = some d ∧ d ≠ m.hash sha256) ∧
      (readFileTree t ManifestFilename_Hash =
          .ok (strBytes (hexEncode (m.hash sha256)) ++ [10]) →
        m.isConsistentWithHash sha256 t = some .decodeErr) := by
  refine ⟨?_, ?_, ?_⟩
  · cases hr : readFileTree t ManifestFilename_Hash with
    | ok b =>
      cases hd : hexDecode b with
      | none => simp [Manifest.isConsistentWithHash, hr, hd]
      | some d =>
        by_cases he : m.hash sha256 = d
        · simp [Manifest.isConsistentWithHash, hr, hd, he]
        · simp only [Manifest.isConsistentWithHash, hr, hd, if_neg he]
          constructor
          · intro h
            exact Option.noConfusion h
          · rintro ⟨b', hb', hdec⟩
            rcases ReadResult.ok.inj hb'
            rw [hd] at hdec
            exact absurd (Option.some.inj hdec).symm he
    | notExist => simp [Manifest.isConsistentWithHash, hr]
    | otherErr => simp [Manifest.isConsistentWithHash, hr]
  · cases hr : readFileTree t ManifestFilename_Hash with
    | ok b =>
      cases hd : hexDecode b with
      | none => simp [Manifest.isConsistentWithHash, hr, hd]
      | some d =>
        by_cases he : m.hash sha256 = d
        · simp [Manifest.isConsistentWithHash, hr, hd, he]
        · simp [Manifest.isConsistentWithHash, hr, hd, he]
          exact fun hdm => he hdm.symm
    | notExist => simp [Manifest.isConsistentWithHash, hr]
    | otherErr => simp [Manifest.isConsistentWithHash, hr]
  · intro hr
    have hfail : hexDecode (strBytes (hexEncode (m.hash sha256)) ++ [10]) = none := by
      rw [strBytes_hexEncode]
      exact hexDecode_append_fail _ _ rfl
    simp [Manifest.isConsistentWithHash, hr, hfail]

/-- C8 amended, at a concrete input: the no-trailing-newline
implication instantiated. -/
theorem spec_c8_amended_witness :
    Manifest.isConsistentWithHash (fun _ => [1]) ⟨[], []⟩
        (FsTree.file "manifest.hash"
          (strBytes (hexEncode (Manifest.hash (fun _ => [1]) ⟨[], []⟩)) ++ [10])
          .nil) =
      some ConsErr.decodeErr :=
  (spec_c8_amended (fun _ => [1]) ⟨[], []⟩
      (FsTree.file "manifest.hash"
        (strBytes (hexEncode (Manifest.hash (fun _ => [1]) ⟨[], []⟩)) ++ [10])
        .nil)).2.2 (by decide)

/-- The reconciliation phase an operation belongs to: the manifest
fetch, then file pruning, then directory pruning, then directory
creation, then file materialization (copy or download). -/
def opPhase : Op → Nat
  | .fetchManifest => 0
  | .removeFile _ => 1
  | .removeDirAll _ => 2
  | .mkdirAll _ => 3
  | .copy _ _ => 4
  | .download _ => 4

lemma pruneFilesOps_phase (ideal : Manifest) :
    ∀ fs, ∀ op ∈ (pruneFilesOps ideal fs).1, opPhase op = 1 := by
  intro fs
  induction fs with
  | nil => simp [pruneFilesOps]
  | cons f rest ih =>
    intro op hop
    by_cases hf : (nameToFileMap ideal f.Name).isNone
    · simp [pruneFilesOps, hf] at hop
      rcases hop with rfl | hop
      · rfl
      · exact ih op hop
    · simp [pruneFilesOps, hf] at hop
      exact ih op hop

lemma pruneDirsOps_phase (ideal : Manifest) :
    ∀ ds, ∀ op ∈ (pruneDirsOps ideal ds).1, opPhase op = 2 := by
  intro ds
  induction ds with
  | nil => simp [pruneDirsOps]
  | cons d rest ih =>
    intro op hop
    by_cases hd : nameToDirMap ideal d
    · simp [pruneDirsOps, hd] at hop
      exact ih op hop
    · simp [pruneDirsOps, hd] at hop
      rcases hop with rfl | hop
      · rfl
      · exact ih op hop

lemma createDirsOps_phase (w : World) :
    ∀ ds, ∀ op ∈ createDirsOps w ds, opPhase op = 3 := by
  intro ds
  induction ds with
  | nil => simp [createDirsOps]
  | cons d rest ih =>
    intro op hop
    by_cases hd : w.dirExistsNext d
    · simp [createDirsOps, hd] at hop
      exact ih op hop
    · simp [createDirsOps, hd] at hop
      rcases hop with rfl | hop
      · rfl
      · exact ih op hop

lemma materializeLoop_phase (w : World) (aprev anext : Manifest) :
    ∀ fs, ∀ op ∈ (materializeLoop w aprev anext fs).1, opPhase op = 4 := by
  intro fs
  induction fs with
  | nil => simp [materializeLoop]
  | cons f rest ih =>
    intro op hop
    cases hp : hashToFileMap aprev f.Hash with
    | some p =>
      by_cases hd : areFileDatesAndSizesEqual (w.statCur p.Name) (w.statNext f.Name)
      · simp [materializeLoop, hp, hd] at hop
        exact ih op hop
      · simp [materializeLoop, hp, hd] at hop
        rcases hop with rfl | hop
        · rfl
        · exact ih op hop
    | none =>
      cases hq : hashToFileMap anext f.Hash with
      | some q =>
        by_cases hn : q.Name = f.Name
        · simp [materializeLoop, hp, hq, hn] at hop
          exact ih op hop
        · cases hh : w.http f.Name with
          | some bytes =>
            simp [materializeLoop, hp, hq, hn, hh] at hop
            rcases hop with rfl | hop
            · rfl
            · exact ih op hop
          | none => simp [materializeLoop, hp, hq, hn, hh] at hop
      | none =>
        cases hh : w.http f.Name with
        | some bytes =>
          simp [materializeLoop, hp, hq, hh] at hop
          rcases hop with rfl | hop
          · rfl
          · exact ih op hop
        | none => simp [materializeLoop, hp, hq, hh] at hop

/-- A list whose operations all sit in one phase is phase-monotone. -/
lemma pairwise_of_const_phase {l : List Op} {k : Nat}
    (h : ∀ op ∈ l, opPhase op = k) :
    l.Pairwise (fun a b => opPhase a ≤ opPhase b) := by
  induction l with
  | nil => exact List.Pairwise.nil
  | cons a rest ih =>
    refine List.Pairwise.cons (fun b hb => ?_) (ih fun op hop => h op (List.mem_cons_of_mem a hop))
    rw [h a (List.mem_cons_self a rest), h b (List.mem_cons_of_mem a hb)]

/-- The operation trace of a reconciliation run is monotone in the
phase order. -/
lemma downloadContentHttp_ops_pairwise (sha256 : List Nat → List Nat)
    (parse : List Nat → Option Manifest) (w : World) :
    (downloadContentHttp sha256 parse w).ops.Pairwise
      (fun a b => opPhase a ≤ opPhase b) := by
  unfold downloadContentHttp
  cases hcb : w.http ManifestFilename_Content with
  | none => simp
  | some contentBytes =>
    cases hpair : isManifestPairConsistent sha256 parse contentBytes w.next with
    | some e => simp [hpair]
    | none =>
      cases hprev : BuildManifest sha256 w.cur with
      | none => simp [hpair, hprev]
      | some aprev =>
        cases hparse : parse contentBytes with
        | none => simp [hpair, hprev, hparse]
        | some ideal =>
          cases hanext : BuildManifest sha256 w.next with
          | none => simp [hpair, hprev, hparse, hanext]
          | some anext =>
            simp only [hpair, hprev, hparse, hanext]
            have h1 := pruneFilesOps_phase ideal anext.Files
            have h2 := pruneDirsOps_phase ideal anext.Dirs
            have h3 := createDirsOps_phase w ideal.Dirs
            have h4 := materializeLoop_phase w aprev anext ideal.Files
            refine List.Pairwise.cons (fun b hb => ?_) ?_
            · simp [opPhase]
            · simp only [List.append_assoc]
              rw [List.pairwise_append]
              refine ⟨pairwise_of_const_phase h1, ?_, ?_⟩
              · rw [List.pairwise_append]
                refine ⟨pairwise_of_const_phase h2, ?_, ?_⟩
                · rw [List.pairwise_append]
                  refine ⟨pairwise_of_const_phase h3, pairwise_of_const_phase h4, ?_⟩
                  intro a ha b hb
                  rw [h3 a ha, h4 b hb]
                  omega
                · intro a ha b hb
                  rcases List.mem_append.1 hb with hb | hb
                  · rw [h2 a ha, h3 b hb]; omega
                  · rw [h2 a ha, h4 b hb]; omega
              · intro a ha b hb
                rcases List.mem_append.1 hb with hb | hb
                · rw [h1 a ha, h2 b hb]; omega
                · rcases List.mem_append.1 hb with hb | hb
                  · rw [h1 a ha, h3 b hb]; omega
                  · rw [h1 a ha, h4 b hb]; omega

/-- C4: within one reconciliation run, operations occur phase by phase:
the manifest fetch, then every pruning of a stray file, then every
recursive removal of a stray directory, then every creation of a
missing ideal directory, and only then any file materialization (copy
or download).  No operation of a later phase ever precedes one of an
earlier phase: along the trace, the phase is monotone. -/
theorem spec_c4_reconcileOrder (sha256 : List Nat → List Nat)
    (parse : List Nat → Option Manifest) (w : World) (i j : Nat)
    (hij : i ≤ j) (hj : j < (downloadContentHttp sha256 parse w).ops.length) :
    opPhase ((downloadContentHttp sha256 parse w).ops.get
        ⟨i, Nat.lt_of_le_of_lt hij hj⟩) ≤
      opPhase ((downloadContentHttp sha256 parse w).ops.get ⟨j, hj⟩) := by
  rcases Nat.lt_or_ge i j with hlt | hge
  · exact (List.pairwise_iff_get.1
      (downloadContentHttp_ops_pairwise sha256 parse w)) _ _ hlt
  · have : i = j := Nat.le_antisymm hij hge
    subst this
    exact Nat.le_refl _

/-- A concrete reconciliation world whose run both prunes a stale file
and downloads a new one: `current` is empty, staging holds the
downloaded hash and a stray file `old`, and the ideal manifest lists the
single file `a`. -/
def c4World : World where
  cur := .nil
  next := .file "manifest.hash" [] (.file "old" [7] .nil)
  http := fun s =>
    if s = "manifest.content" then some []
    else if s = "a" then some [1] else none
  statCur := fun _ => none
  statNext := fun _ => none
  dirExistsNext := fun _ => false

/-- C4 at the concrete world: the stray-file removal (index 1) precedes
the download (index 2). -/
theorem spec_c4_reconcileOrder_witness :
    opPhase ((downloadContentHttp (fun _ => [])
        (fun _ => some ⟨[⟨"a", ""⟩], []⟩) c4World).ops.get ⟨1, by decide⟩) ≤
      opPhase ((downloadContentHttp (fun _ => [])
        (fun _ => some ⟨[⟨"a", ""⟩], []⟩) c4World).ops.get ⟨2, by decide⟩) :=
  spec_c4_reconcileOrder (fun _ => []) (fun _ => some ⟨[⟨"a", ""⟩], []⟩)
    c4World 1 2 (by decide) (by decide)

/-- The materialize pass only writes to the names it is given: a name
not listed is the destination of no copy and no download. -/
lemma materializeLoop_not_mem_name (w : World) (aprev anext : Manifest)
    (fname : String) :
    ∀ fs, fname ∉ fs.map ManifestFile.Name →
      (∀ s, Op.copy s fname ∉ (materializeLoop w aprev anext fs).1) ∧
        Op.download fname ∉ (materializeLoop w aprev anext fs).1 := by
  intro fs
  induction fs with
  | nil => intro _; simp [materializeLoop]
  | cons g rest ih =>
    intro hnm
    have hgf : g.Name ≠ fname := by
      intro h
      exact hnm (by simp [h])
    have hrest : fname ∉ rest.map ManifestFile.Name := by
      intro h
      exact hnm (by simp [h])
    obtain ⟨ihc, ihd⟩ := ih hrest
    cases hp : hashToFileMap aprev g.Hash with
    | some p =>
      by_cases hd : areFileDatesAndSizesEqual (w.statCur p.Name) (w.statNext g.Name)
      · constructor
        · intro s
          simp [materializeLoop, hp, hd]
          exact ihc s
        · simp [materializeLoop, hp, hd]
          exact ihd
      · constructor
        · intro s
          simp [materializeLoop, hp, hd, List.mem_cons, not_or]
          exact ⟨fun _ h2 => hgf h2.symm, ihc s⟩
        · simp [materializeLoop, hp, hd]
          exact ihd
    | none =>
      cases hq : hashToFileMap anext g.Hash with
      | some q =>
        by_cases hn : q.Name = g.Name
        · constructor
          · intro s
            simp [materializeLoop, hp, hq, hn]
            exact ihc s
          · simp [materializeLoop, hp, hq, hn]
            exact ihd
        · cases hh : w.http g.Name with
          | some bytes =>
            constructor
            · intro s
              simp [materializeLoop, hp, hq, hn, hh]
              exact ihc s
            · simp [materializeLoop, hp, hq, hn, hh, List.mem_cons, not_or]
              exact ⟨fun h => hgf h.symm, ihd⟩
          | none =>
            constructor
            · intro s
              simp [materializeLoop, hp, hq, hn, hh]
            · simp [materializeLoop, hp, hq, hn, hh]
      | none =>
        cases hh : w.http g.Name with
        | some bytes =>
          constructor
          · intro s
            simp [materializeLoop, hp, hq, hh]
            exact ihc s
          · simp [materializeLoop, hp, hq, hh, List.mem_cons, not_or]
            exact ⟨fun h => hgf h.symm, ihd⟩
        | none =>
          constructor
          · intro s
            simp [materializeLoop, hp, hq, hh]
          · simp [materializeLoop, hp, hq, hh]

/-- The materialize pass performs no copy and no download for a listed
file whose hash is found in the current digest index with matching
dates and sizes, provided the listed names are distinct. -/
lemma materializeLoop_satisfied_untouched (w : World) (aprev anext : Manifest) :
    ∀ fs (f p : ManifestFile), (fs.map ManifestFile.Name).Nodup → f ∈ fs →
      hashToFileMap aprev f.Hash = some p →
      areFileDatesAndSizesEqual (w.statCur p.Name) (w.statNext f.Name) = true →
      (∀ s, Op.copy s f.Name ∉ (materializeLoop w aprev anext fs).1) ∧
        Op.download f.Name ∉ (materializeLoop w aprev anext fs).1 := by
  intro fs
  induction fs with
  | nil => intro f p _ hmem; exact absurd hmem (List.not_mem_nil f)
  | cons g rest ih =>
    intro f p hnodup hmem hp hd
    have hnodup' : (rest.map ManifestFile.Name).Nodup :=
      (List.nodup_cons.1 (by simpa using hnodup)).2
    rcases List.mem_cons.1 hmem with rfl | hmem
    · -- the satisfied file is at the head: it is skipped, and its name
      -- does not recur in the tail
      have hrest : f.Name ∉ rest.map ManifestFile.Name :=
        (List.nodup_cons.1 (by simpa using hnodup)).1
      obtain ⟨ihc, ihd⟩ := materializeLoop_not_mem_name w aprev anext f.Name rest hrest
      constructor
      · intro s
        simp [materializeLoop, hp, hd]
        exact ihc s
      · simp [materializeLoop, hp, hd]
        exact ihd
    · -- the satisfied file sits in the tail; the head writes only to
      -- its own distinct name
      have hgname : g.Name ≠ f.Name := by
        intro h
        have : f.Name ∈ rest.map ManifestFile.Name :=
          List.mem_map_of_mem ManifestFile.Name hmem
        have hgnotin : g.Name ∉ rest.map ManifestFile.Name :=
          (List.nodup_cons.1 (by simpa using hnodup)).1
        rw [h] at hgnotin
        exact hgnotin this
      obtain ⟨ihc, ihd⟩ := ih f p hnodup' hmem hp hd
      cases hp' : hashToFileMap aprev g.Hash with
      | some p' =>
        by_cases hd' : areFileDatesAndSizesEqual (w.statCur p'.Name) (w.statNext g.Name)
        · exact ⟨fun s => by simp [materializeLoop, hp', hd']; exact ihc s,
            by simp [materializeLoop, hp', hd']; exact ihd⟩
        · constructor
          · intro s
            simp [materializeLoop, hp', hd', List.mem_cons, not_or]
            exact ⟨fun _ h2 => hgname h2.symm, ihc s⟩
          · simp [materializeLoop, hp', hd']
            exact ihd
      | none =>
        cases hq : hashToFileMap anext g.Hash with
        | some q =>
          by_cases hn : q.Name = g.Name
          · exact ⟨fun s => by simp [materializeLoop, hp', hq, hn]; exact ihc s,
              by simp [materializeLoop, hp', hq, hn]; exact ihd⟩
          · cases hh : w.http g.Name with
            | some bytes =>
              constructor
              · intro s
                simp [materializeLoop, hp', hq, hn, hh]
                exact ihc s
              · simp [materializeLoop, hp', hq, hn, hh, List.mem_cons, not_or]
                exact ⟨fun h => hgname h.symm, ihd⟩
            | none =>
              exact ⟨fun s => by simp [materializeLoop, hp', hq, hn, hh],
                by simp [materializeLoop, hp', hq, hn, hh]⟩
        | none =>
          cases hh : w.http g.Name with
          | some bytes =>
            constructor
            · intro s
              simp [materializeLoop, hp', hq, hh]
              exact ihc s
            · simp [materializeLoop, hp', hq, hh, List.mem_cons, not_or]
              exact ⟨fun h => hgname h.symm, ihd⟩
          | none =>
            exact ⟨fun s => by simp [materializeLoop, hp', hq, hh],
              by simp [materializeLoop, hp', hq, hh]⟩

/-- C5 (amended): for a file `F` of the ideal manifest, let `P` be the
entry selected by the last-wins digest index of actual-current for
`F.Hash`; if the stat results of `current/P.Name` and `next/F.Name`
agree on modification time and size, the reconciler performs neither a
copy nor an HTTP download for `F` (assuming the ideal manifest lists
distinct names). -/
theorem spec_c5_leastWork (sha256 : List Nat → List Nat)
    (parse : List Nat → Option Manifest) (w : World)
    (contentBytes : List Nat) (ideal aprev anext : Manifest)
    (f p : ManifestFile)
    (hcb : w.http ManifestFilename_Content = some contentBytes)
    (hpair : isManifestPairConsistent sha256 parse contentBytes w.next = none)
    (hprev : BuildManifest sha256 w.cur = some aprev)
    (hparse : parse contentBytes = some ideal)
    (hanext : BuildManifest sha256 w.next = some anext)
    (hnodup : (ideal.Files.map ManifestFile.Name).Nodup)
    (hf : f ∈ ideal.Files)
    (hp : hashToFileMap aprev f.Hash = some p)
    (hd : areFileDatesAndSizesEqual (w.statCur p.Name) (w.statNext f.Name) = true) :
    (∀ s, Op.copy s f.Name ∉ (downloadContentHttp sha256 parse w).ops) ∧
      Op.download f.Name ∉ (downloadContentHttp sha256 parse w).ops := by
  have hsat := materializeLoop_satisfied_untouched w aprev anext ideal.Files f p
    hnodup hf hp hd
  have hops : (downloadContentHttp sha256 parse w).ops =
      Op.fetchManifest ::
        ((pruneFilesOps ideal anext.Files).1 ++ (pruneDirsOps ideal anext.Dirs).1 ++
          createDirsOps w ideal.Dirs ++ (materializeLoop w aprev anext ideal.Files).1) := by
    unfold downloadContentHttp
    rw [hcb]
    simp only [hpair, hprev, hparse, hanext]
  constructor
  · intro s hmem
    rw [hops] at hmem
    simp only [List.mem_cons, List.mem_append] at hmem
    rcases hmem with h | (((h | h) | h) | h)
    · exact Op.noConfusion h
    · have := pruneFilesOps_phase ideal anext.Files _ h
      simp [opPhase] at this
    · have := pruneDirsOps_phase ideal anext.Dirs _ h
      simp [opPhase] at this
    · have := createDirsOps_phase w ideal.Dirs _ h
      simp [opPhase] at this
    · exact hsat.1 s h
  · intro hmem
    rw [hops] at hmem
    simp only [List.mem_cons, List.mem_append] at hmem
    rcases hmem with h | (((h | h) | h) | h)
    · exact Op.noConfusion h
    · have := pruneFilesOps_phase ideal anext.Files _ h
      simp [opPhase] at this
    · have := pruneDirsOps_phase ideal anext.Dirs _ h
      simp [opPhase] at this
    · have := createDirsOps_phase w ideal.Dirs _ h
      simp [opPhase] at this
    · exact hsat.2 h

/-- A reconciliation world where `current` holds two identical files
(`p1`, `p2`, same digest), `p1` agrees with the staged `next/f` on
(mtime, size) while `p2` does not, and the ideal manifest wants `f`
with that digest. -/
def c5World : World where
  cur := .file "p1" [1] (.file "p2" [1] .nil)
  next := .file "manifest.hash" [] (.file "f" [1] .nil)
  http := fun s => if s = "manifest.content" then some [] else none
  statCur := fun s =>
    if s = "p1" then some (5, 5) else if s = "p2" then some (7, 7) else none
  statNext := fun s => if s = "f" then some (5, 5) else none
  dirExistsNext := fun _ => false

/-- C5 counterexample: some file `P` of `current` (here `p1`) has the
ideal file's digest and agrees with `next/f` on modification time and
size, yet the run still performs a copy for `f` — the digest index is
last-wins and selects `p2`, whose dates differ. -/
theorem spec_c5_counterexample :
    ∃ m P,
      BuildManifest (fun _ => []) c5World.cur = some m ∧
        P ∈ m.Files ∧ P.Hash = (⟨"f", ""⟩ : ManifestFile).Hash ∧
        areFileDatesAndSizesEqual (c5World.statCur P.Name)
          (c5World.statNext "f") = true ∧
        Op.copy "p2" "f" ∈
          (downloadContentHttp (fun _ => [])
            (fun _ => some ⟨[⟨"f", ""⟩], []⟩) c5World).ops :=
  ⟨⟨[⟨"p1", ""⟩, ⟨"p2", ""⟩], []⟩, ⟨"p1", ""⟩,
    by decide, by decide, by decide, by decide, by decide⟩

/-- The single-candidate variant of `c5World`: only `p1` carries the
digest, and its dates agree with the staged copy. -/
def c5WorldU : World where
  cur := .file "p1" [1] .nil
  next := .file "manifest.hash" [] (.file "f" [1] .nil)
  http := fun s => if s = "manifest.content" then some [] else none
  statCur := fun s => if s = "p1" then some (5, 5) else none
  statNext := fun s => if s = "f" then some (5, 5) else none
  dirExistsNext := fun _ => false

/-- C5 amended, at a concrete input: the satisfied file is neither
copied nor downloaded. -/
theorem spec_c5_leastWork_witness :
    Op.copy "p1" "f" ∉
        (downloadContentHttp (fun _ => [])
          (fun _ => some ⟨[⟨"f", ""⟩], []⟩) c5WorldU).ops ∧
      Op.download "f" ∉
        (downloadContentHttp (fun _ => [])
          (fun _ => some ⟨[⟨"f", ""⟩], []⟩) c5WorldU).ops :=
  ⟨(spec_c5_leastWork (fun _ => []) (fun _ => some ⟨[⟨"f", ""⟩], []⟩) c5WorldU
      [] ⟨[⟨"f", ""⟩], []⟩ ⟨[⟨"p1", ""⟩], []⟩ ⟨[⟨"f", ""⟩], []⟩
      ⟨"f", ""⟩ ⟨"p1", ""⟩ (by decide) (by decide) (by decide) (by decide)
      (by decide) (by decide) (by decide) (by decide) (by decide)).1 "p1",
    (spec_c5_leastWork (fun _ => []) (fun _ => some ⟨[⟨"f", ""⟩], []⟩) c5WorldU
      [] ⟨[⟨"f", ""⟩], []⟩ ⟨[⟨"p1", ""⟩], []⟩ ⟨[⟨"f", ""⟩], []⟩
      ⟨"f", ""⟩ ⟨"p1", ""⟩ (by decide) (by decide) (by decide) (by decide)
      (by decide) (by decide) (by decide) (by decide) (by decide)).2⟩

/-- If some service reports running at every poll through the deadline,
the stop-poll loop times out. -/
lemma pollRounds_timeout (isRunning : Nat → String → Bool)
    (services : List String) (wait : Nat) :
    ∀ n t, wait + 1 - t = n → t ≤ wait + 1 →
      (∀ u, t ≤ u → u ≤ wait + 1 →
        services.filter (fun s => isRunning u s) ≠ []) →
      pollRounds isRunning services wait t = false := by
  intro n
  induction n with
  | zero =>
    intro t h0 ht hrun
    have hteq : t = wait + 1 := by omega
    subst hteq
    have hemp : (services.filter (fun s => isRunning (wait + 1) s)).isEmpty = false := by
      cases hcase : services.filter (fun s => isRunning (wait + 1) s) with
      | nil => exact absurd hcase (hrun (wait + 1) le_rfl le_rfl)
      | cons a l => rfl
    rw [pollRounds, hemp]
    simp
  | succ n ihn =>
    intro t h0 ht hrun
    have hemp : (services.filter (fun s => isRunning t s)).isEmpty = false := by
      cases hcase : services.filter (fun s => isRunning t s) with
      | nil => exact absurd hcase (hrun t le_rfl ht)
      | cons a l => rfl
    rw [pollRounds, hemp]
    simp only [Bool.false_eq_true, if_false]
    rw [if_neg (by omega : ¬wait < t)]
    exact ihn (t + 1) (by omega) (by omega)
      (fun u hu1 hu2 => hrun u (by omega) hu2)

/-- C9: if the services of the union of `current/servicenames` and
`next/servicenames` keep reporting running at every one-second poll
through the `ServiceStopWaitSeconds` deadline, the before-sync hook
restarts the services it stopped (a start command for every stopped
service), returns `ErrServiceNotStopping`, and the apply is abandoned
for the tick: no mirror operation appears in any `Apply` run driven by
this hook. -/
theorem spec_c9_serviceNotStopping (curSN nextSN : Option String)
    (isRunning : Nat → String → Bool) (wait : Nat)
    (h : ∀ t, t ≤ wait + 1 →
      (imqsServiceNames curSN nextSN).filter (fun s => isRunning t s) ≠ []) :
    beforeSyncImqs curSN nextSN isRunning wait =
      ((imqsServiceNames curSN nextSN).map SvcOp.stop ++
        (imqsServiceNames curSN nextSN).map SvcOp.start,
        some SvcErr.serviceNotStopping) ∧
      ∀ (dirs : List String) (readiness : String → Bool × Option ApplyCheckErr)
        (mres : String → Option MirrorErr) (d : String),
        ApplyEv.mirror d ∉
          Apply dirs readiness
            (fun _ => beforeSyncImqs curSN nextSN isRunning wait) mres := by
  have hpoll : pollRounds isRunning (imqsServiceNames curSN nextSN) wait 0 = false :=
    pollRounds_timeout isRunning (imqsServiceNames curSN nextSN) wait
      (wait + 1) 0 (by omega) (by omega) (fun u _ hu2 => h u hu2)
  have hbs : beforeSyncImqs curSN nextSN isRunning wait =
      ((imqsServiceNames curSN nextSN).map SvcOp.stop ++
        (imqsServiceNames curSN nextSN).map SvcOp.start,
        some SvcErr.serviceNotStopping) := by
    simp [beforeSyncImqs, hpoll]
  refine ⟨hbs, ?_⟩
  intro dirs readiness mres d hmem
  have hb2 : (beforeSyncImqs curSN nextSN isRunning wait).2 =
      some SvcErr.serviceNotStopping := by rw [hbs]
  cases hcr : collectReady dirs readiness with
  | none => simp [Apply, hcr] at hmem
  | some ready =>
    by_cases hre : ready.isEmpty
    · simp [Apply, hcr, hre] at hmem
    · simp [Apply, hcr, hre, hb2] at hmem

/-- C9 at a concrete input: one service that never stops, a
zero-second fence. -/
theorem spec_c9_serviceNotStopping_witness :
    beforeSyncImqs (some "svc") none (fun _ _ => true) 0 =
      ([SvcOp.stop "svc", SvcOp.start "svc"], some SvcErr.serviceNotStopping) ∧
      ApplyEv.mirror "d" ∉
        Apply ["d"] (fun _ => (true, none))
          (fun _ => beforeSyncImqs (some "svc") none (fun _ _ => true) 0)
          (fun _ => none) := by
  have h := spec_c9_serviceNotStopping (some "svc") none (fun _ _ => true) 0
    (fun t _ => by
      show (imqsServiceNames (some "svc") none).filter (fun _ => true) ≠ []
      decide)
  exact ⟨h.1, h.2 ["d"] (fun _ => (true, none)) (fun _ => none) "d"⟩

/-- C2 at a concrete input: the stream formula and the
files-and-dirs-only dependence instantiated for a one-file,
one-directory manifest. -/
theorem spec_c2_envelopeDigest_witness :
    Manifest.hash (fun bytes => bytes) ⟨[⟨"a", "ff"⟩], ["d"]⟩ =
      envelopeStream ⟨[⟨"a", "ff"⟩], ["d"]⟩ ∧
      Manifest.hash (fun bytes => bytes) ⟨[⟨"a", "ff"⟩], ["d"]⟩ =
        Manifest.hash (fun bytes => bytes) ⟨[⟨"a", "ff"⟩], ["d"]⟩ :=
  ⟨spec_c2_envelopeDigest.1 (fun bytes => bytes) ⟨[⟨"a", "ff"⟩], ["d"]⟩,
    spec_c2_envelopeDigest.2.1 (fun bytes => bytes)
      ⟨[⟨"a", "ff"⟩], ["d"]⟩ ⟨[⟨"a", "ff"⟩], ["d"]⟩ rfl rfl⟩

end Updater
